import Mathlib

/-
Formal model of the gaia/tachyon shared-memory MPSC queue core and its
mutex, shallowly embedded from:
  src/lib/mpsc_queue_impl.h   (queue operations)
  src/lib/internal/mpsc_queue.h  (data layout)
  src/lib/mutex.cc            (MutexRelease)
  src/lib/constants.h         (kQueueCapacity)
Machine words are modelled as Nat with explicit wrap: uint32 cells wrap at
2 ^ 32, the two packed 16-bit counters of write_waiters wrap at 2 ^ 16.
The write_length cell is an int32_t; it is modelled as Int (its reachable
values stay far from the 32-bit boundary in every development below).
Operations are modelled at the granularity of the atomic instructions of
the source; a run interleaves whole calls, with the two kernel-wait points
(the parked single consumer, parked blocking writers) represented
explicitly in the configuration.
-/

namespace Tachyon

/-- Queue capacity constant from src/lib/constants.h (kQueueCapacity = 64). -/
def kQueueCapacity : Nat := 64

/-- Modelled from the spec: kQueueCapacityShifts is referenced by
src/lib/mpsc_queue_impl.h but not defined under src/; the spec fixes
array_length_shifts = log2(capacity), hence 6 for capacity 64. The
development below is parametric in the shift count s, with capacity 2 ^ s. -/
def kQueueCapacityShifts : Nat := 6

namespace internal

/-- The byte copy loop of internal::VolatileCopy
(src/lib/mpsc_queue_impl.h lines 36-38): n iterations of
star-dest-byte-plus-plus := star-src-byte-plus-plus, on byte buffers
modelled as lists of byte values. If either buffer is exhausted the C code
would access out of bounds; the model leaves the remaining bytes unchanged
(all uses below are within bounds). -/
def byteLoop : Nat → List Nat → List Nat → List Nat
  | 0, dest, _ => dest
  | n + 1, dest, src =>
    match dest, src with
    | _ :: dtail, s0 :: stail => s0 :: byteLoop n dtail stail
    | dest, _ =>
      -- out-of-bounds access in C; the model keeps dest unchanged
      dest

/-- The aligned 64-bit copy loop of internal::VolatileCopy (lines 26-29):
while 8 <= length, one 64-bit load/store moves the next 8 bytes and both
pointers advance by 8. Returns the updated destination buffer and the
remaining length (the value of the length variable at loop exit). The
while condition 8 <= length is rendered structurally: the body fires
exactly on lengths of the form n + 8. -/
def longLoop : Nat → List Nat → List Nat → List Nat × Nat
  | n + 8, dest, src =>
    let dest2 := byteLoop 8 dest src
    let r := longLoop n (dest2.drop 8) (src.drop 8)
    (dest2.take 8 ++ r.1, r.2)
  | len, dest, _ => (dest, len)

/-- internal::VolatileCopy (src/lib/mpsc_queue_impl.h lines 12-41): when
both pointers are 4-byte aligned (the aligned flag models the address
test on line 18), copy in 64-bit units while at least 8 bytes remain;
then the byte loop runs with the remaining count, but dest_byte and
src_byte are re-derived from the ORIGINAL base pointers (lines 32-33),
not from the advanced 64-bit pointers — so on the aligned path with a
byte tail the loop re-copies the first bytes and the destination tail
bytes are never written. On the unaligned path everything is copied byte
by byte from the start. -/
def VolatileCopy (aligned : Bool) (dest src : List Nat) (len : Nat) : List Nat :=
  if aligned then
    let r := longLoop len dest src
    byteLoop r.2 r.1 src
  else
    byteLoop len dest src

end internal

/-- CompareExchange from atomics.h as used by the sources: compare the cell
with expected; on match store desired. Returns the success flag and the
resulting cell value. -/
def CompareExchange (cell expected desired : Nat) : Bool × Nat :=
  if cell = expected then (true, desired) else (false, cell)

/-- MutexRelease (src/lib/mutex.cc lines 67-82) acting on the 32-bit mutex
state word: CAS 1 to 0; on failure CAS 2 to 0 and wake one waiter; if that
also fails the assertion (double release) fires, modelled as none.
Returns (new state, number of waiters the FutexWake call requests). -/
def MutexRelease (state : Nat) : Option (Nat × Nat) :=
  let r1 := CompareExchange state 1 0
  if r1.1 then some (r1.2, 0)
  else
    let r2 := CompareExchange r1.2 2 0
    if r2.1 then some (r2.2, 1) else none

/-- One slot of the ring (struct Node of src/lib/internal/mpsc_queue.h):
the payload, the 32-bit valid word and the 32-bit packed write_waiters
word (bits 0..15 taken counter, bits 16..31 woken counter). -/
structure Node (α : Type) where
  value : α
  valid : Nat
  write_waiters : Nat
deriving DecidableEq

instance {α : Type} [Inhabited α] : Inhabited (Node α) := ⟨⟨default, 0, 0⟩⟩

/-- The shared queue header (struct RawQueue): slot array, write_length
(int32_t), head_index (32-bit), and the advisory blocked_threads counter
declared in the tachyon header. The capacity and shift constants are
compile-time parameters, passed explicitly to the operations. -/
structure RawQueue (α : Type) where
  array : List (Node α)
  write_length : Int
  head_index : Nat
  blocked_threads : Nat
deriving DecidableEq

namespace MpscQueue

variable {α : Type} [Inhabited α]

/-- The wrap mask (src/lib/mpsc_queue_impl.h lines 96-97 and 201-202):
numeric-limits-uint32-max shifted right by (32 - kQueueCapacityShifts). -/
def mask (s : Nat) : Nat := (2 ^ 32 - 1) >>> (32 - s)

/-- Read slot i of the array (queue_.array + i). Out-of-range reads, which
the C code would perform as out-of-bounds accesses, return the default
node; every use below is proved in range. -/
def getNode (q : RawQueue α) (i : Nat) : Node α := q.array.getD i default

/-- ExchangeAddWord on the low 16-bit half of write_waiters
(lines 108-110): fetch-add 1 on the first two bytes, wrapping at 2 ^ 16,
leaving the high half unchanged. Returns (old low word, new full word). -/
def exchangeAddWordLow (w : Nat) : Nat × Nat :=
  (w % 2 ^ 16, w / 2 ^ 16 * 2 ^ 16 + (w % 2 ^ 16 + 1) % 2 ^ 16)

/-- IncrementWord on the high 16-bit half of write_waiters
(lines 205-208): fetch-add 1 on the second 16-bit word, wrapping at
2 ^ 16, leaving the low half unchanged. -/
def incrementWordHigh (w : Nat) : Nat :=
  w % 2 ^ 16 + (w / 2 ^ 16 + 1) % 2 ^ 16 * 2 ^ 16

/-- MpscQueue::Reserve (lines 68-81): fetch-add write_length; if the old
value was at least the capacity, decrement again and fail. -/
def Reserve (cap : Nat) (q : RawQueue α) : Bool × RawQueue α :=
  let old_length := q.write_length
  let q1 : RawQueue α := { q with write_length := q.write_length + 1 }
  if (cap : Int) ≤ old_length then
    (false, { q1 with write_length := q1.write_length - 1 })
  else (true, q1)

/-- Lines 92-104 of DoEnqueue: fetch-add head_index (a 32-bit cell, so the
add wraps at 2 ^ 32), AND the shared head_index with the wrap mask, and
mask the ticket held locally. Returns the updated queue and the masked
local slot index. -/
def acquireHead (s : Nat) (q : RawQueue α) : RawQueue α × Nat :=
  let old_head := q.head_index
  let q1 : RawQueue α := { q with head_index := (q.head_index + 1) % 2 ^ 32 }
  let q2 : RawQueue α := { q1 with head_index := q1.head_index &&& mask s }
  (q2, old_head &&& mask s)

/-- Lines 106-110 of DoEnqueue: fetch-add the taken counter (low word of
write_waiters) of slot i. Returns the updated queue and the old 16-bit
counter value (my_wait_number). -/
def takeWaitTicket (q : RawQueue α) (i : Nat) : RawQueue α × Nat :=
  let n := getNode q i
  let r := exchangeAddWordLow n.write_waiters
  ({ q with array := q.array.set i { n with write_waiters := r.2 } }, r.1)

/-- Lines 117-129 of DoEnqueue for the value-abstracted model: the payload
write is modelled as whole replacement. By VolatileCopy_eq this is exact
precisely when the copy is total (unaligned buffers, payload size below 8,
or a multiple of 8 bytes); for aligned byte-tail payloads the program
stores a partially copied value — the faithful byte-level write is
publishBytes, and the C1 and C3 exhibit theorems show the divergence.
The developments built on this publish either do not depend on the copied
bytes or are read as statements about totally-copied payloads. Then
exchange valid to 1, returning the updated queue, the previous valid
value (whose being 1 is the fatal overwrite assertion), and the number of
waiters the conditional FutexWake on slot valid requests (1 when the
previous value was 2). -/
def publish (q : RawQueue α) (i : Nat) (item : α) : RawQueue α × Nat × Nat :=
  let n := getNode q i
  let old_valid := n.valid
  let q1 : RawQueue α := { q with array := q.array.set i { n with value := item, valid := 1 } }
  (q1, old_valid, if old_valid = 2 then 1 else 0)

/-- MpscQueue::DoEnqueue (lines 88-130) on the non-waiting path: acquire
the head ticket, take the waiter ticket, publish. Returns the queue, the
previous valid value at the publish exchange, and the wake count. -/
def DoEnqueue (s : Nat) (q : RawQueue α) (item : α) : RawQueue α × Nat × Nat :=
  let a := acquireHead s q
  let t := takeWaitTicket a.1 a.2
  publish t.1 a.2 item

/-- MpscQueue::EnqueueAt (lines 83-86). -/
def EnqueueAt (s : Nat) (q : RawQueue α) (item : α) : RawQueue α :=
  (DoEnqueue s q item).1

/-- MpscQueue::CancelReservation (lines 158-162). -/
def CancelReservation (q : RawQueue α) : RawQueue α :=
  { q with write_length := q.write_length - 1 }

/-- MpscQueue::Enqueue (lines 164-172): Reserve, then EnqueueAt. -/
def Enqueue (s cap : Nat) (q : RawQueue α) (item : α) : Bool × RawQueue α :=
  let r := Reserve cap q
  if r.1 then (true, EnqueueAt s r.2 item) else (false, r.2)

/-- The woken counter extracted from an observed write_waiters word
(lines 142 and 153): bits 16..30. -/
def wokenCounter (w : Nat) : Nat := (w >>> 16) &&& 0x7FFF

/-- The inversion flag exactly as the source computes it (lines 147 and
154): it compares the two masked values (w AND 2 ^ 15) and (w AND 2 ^ 31),
which are unequal whenever either bit is set. -/
def invertedFlag (w : Nat) : Bool := decide (w &&& (1 <<< 15) ≠ w &&& (1 <<< 31))

/-- The wait-loop guard of MpscQueue::DoWriteBlocking (lines 132-156)
evaluated on one observed write_waiters word w, for a writer whose ticket
(after dropping the MSB on line 136) is my AND 0x7FFF: the writer keeps
waiting exactly while this is true. -/
def keepsWaiting (w my_wait_number : Nat) : Bool :=
  let m := my_wait_number &&& 0x7FFF
  (!invertedFlag w && decide (wokenCounter w < m)) ||
    (invertedFlag w && decide (wokenCounter w > m))

/-- MpscQueue::DoDequeue (lines 193-209): copy the slot value out, advance
and mask the local tail index (a uint32, so the increment wraps at 2 ^ 32
before masking), and increment the woken counter (high word of
write_waiters). Returns (item, updated queue, new tail index). -/
def DoDequeue (s : Nat) (q : RawQueue α) (tail : Nat) : α × RawQueue α × Nat :=
  let n := getNode q tail
  let item := n.value
  let tail1 := ((tail + 1) % 2 ^ 32) &&& mask s
  let q1 : RawQueue α :=
    { q with array := q.array.set tail { n with write_waiters := incrementWordHigh n.write_waiters } }
  (item, q1, tail1)

/-- MpscQueue::DequeueNext (lines 174-191): CAS the valid word of the slot
at the tail index from 1 to 0; on failure return none with nothing
changed; on success DoDequeue and decrement write_length. -/
def DequeueNext (s : Nat) (q : RawQueue α) (tail : Nat) : Option α × RawQueue α × Nat :=
  let n := getNode q tail
  let cas := CompareExchange n.valid 1 0
  if cas.1 then
    let q1 : RawQueue α := { q with array := q.array.set tail { n with valid := cas.2 } }
    let d := DoDequeue s q1 tail
    (some d.1, { d.2.1 with write_length := d.2.1.write_length - 1 }, d.2.2)
  else (none, q, tail)

/-- The common completion of MpscQueue::DequeueNextBlocking
(lines 240-253): exchange valid to 0, DoDequeue, fetch-add write_length by
-1; when the old length exceeded the capacity the code issues a FutexWake
on write_waiters for all waiters (which changes no shared state; parked
writers re-evaluate their guard). -/
def DequeueNextBlockingFinish (s cap : Nat) (q : RawQueue α) (tail : Nat) :
    α × RawQueue α × Nat :=
  let n := getNode q tail
  let q1 : RawQueue α := { q with array := q.array.set tail { n with valid := 0 } }
  let d := DoDequeue s q1 tail
  let old_length := d.2.1.write_length
  let _wakeAll := decide ((cap : Int) < old_length)
  (d.1, { d.2.1 with write_length := old_length - 1 }, d.2.2)

/-- The queue constructor MpscQueue::MpscQueue (lines 45-59), acting on
the uninitialized shared memory returned by the pool (the argument g):
write_length and head_index are zeroed and the loop zeroes valid and
write_waiters of every slot. The payload bytes and blocked_threads are
not written. -/
def construct (g : RawQueue α) : RawQueue α :=
  { g with write_length := 0, head_index := 0,
           array := g.array.map fun n => { n with valid := 0, write_waiters := 0 } }

/-- A configuration of one queue with its single consumer: the shared
RawQueue, the consumer-local tail index, whether the consumer is parked
inside DequeueNextBlocking (having set the sentinel valid = 2), the
blocking writers parked inside DoWriteBlocking (slot index, ticket, item),
and the previous valid value observed by the most recent publish exchange
(the value the overwrite assertion inspects). -/
structure Config (α : Type) where
  raw : RawQueue α
  tail_index : Nat
  consumerParked : Bool
  parkedWriters : List (Nat × Nat × α)
  lastPublishPrevValid : Option Nat
deriving DecidableEq

instance {α : Type} [Inhabited α] : Inhabited (RawQueue α) := ⟨⟨[], 0, 0, 0⟩⟩

instance {α : Type} [Inhabited α] : Inhabited (Config α) :=
  ⟨⟨⟨[], 0, 0, 0⟩, 0, false, [], none⟩⟩

/-- A freshly created queue handle: constructor plus the local handle
state (tail index 0). -/
def initConfig (g : RawQueue α) : Config α :=
  { raw := construct g, tail_index := 0, consumerParked := false,
    parkedWriters := [], lastPublishPrevValid := none }

/-- The schedulable whole-call events: a producer Enqueue, a producer
EnqueueBlocking up to its wait decision, a parked writer re-checking its
guard and completing, a consumer DequeueNext, a consumer
DequeueNextBlocking up to its wait decision, and a parked consumer
resuming. -/
inductive Act (α : Type) where
  | enqueue (item : α)
  | enqueueBlocking (item : α)
  | writerResume (idx : Nat)
  | dequeueNext
  | dequeueNextBlockingCall
  | consumerResume
deriving DecidableEq

/-- One scheduled event. none means the event is not enabled (the parked
thread does not exist or its wait condition still holds, or the single
consumer is inside a blocking call). -/
def stepAct (s cap : Nat) (a : Act α) (c : Config α) : Option (Config α) :=
  match a with
  | .enqueue item =>
    -- MpscQueue::Enqueue: Reserve, then DoEnqueue without blocking.
    let r := Reserve cap c.raw
    if r.1 then
      let e := DoEnqueue s r.2 item
      some { c with raw := e.1, lastPublishPrevValid := some e.2.1 }
    else
      some { c with raw := r.2 }
  | .enqueueBlocking item =>
    -- MpscQueue::EnqueueBlocking (lines 211-221): unconditional increment
    -- of write_length, then DoEnqueue with can_block; the writer parks if
    -- the DoWriteBlocking guard holds on the word it observes.
    let q1 : RawQueue α := { c.raw with write_length := c.raw.write_length + 1 }
    let a1 := acquireHead s q1
    let t := takeWaitTicket a1.1 a1.2
    if keepsWaiting (getNode t.1 a1.2).write_waiters t.2 then
      some { c with raw := t.1, parkedWriters := c.parkedWriters ++ [(a1.2, t.2, item)] }
    else
      let p := publish t.1 a1.2 item
      some { c with raw := p.1, lastPublishPrevValid := some p.2.1 }
  | .writerResume idx =>
    -- a parked writer re-reads write_waiters; if the guard has become
    -- false it leaves DoWriteBlocking and performs the copy and publish.
    match c.parkedWriters.get? idx with
    | none => none
    | some w =>
      if keepsWaiting (getNode c.raw w.1).write_waiters w.2.1 then none
      else
        let p := publish c.raw w.1 w.2.2
        some { c with raw := p.1,
                      parkedWriters := c.parkedWriters.eraseIdx idx,
                      lastPublishPrevValid := some p.2.1 }
  | .dequeueNext =>
    if c.consumerParked then none
    else
      let d := DequeueNext s c.raw c.tail_index
      some { c with raw := d.2.1, tail_index := d.2.2 }
  | .dequeueNextBlockingCall =>
    -- MpscQueue::DequeueNextBlocking (lines 223-254): CAS valid 1 to 0
    -- completes at once; else CAS valid 0 to 2 parks the consumer; if
    -- that also fails (valid already published meanwhile) the wait loop
    -- is skipped and the call completes.
    if c.consumerParked then none
    else
      let n := getNode c.raw c.tail_index
      if n.valid = 1 then
        let d := DequeueNextBlockingFinish s cap c.raw c.tail_index
        some { c with raw := d.2.1, tail_index := d.2.2 }
      else if n.valid = 0 then
        some { c with
               raw := { c.raw with array := c.raw.array.set c.tail_index { n with valid := 2 } },
               consumerParked := true }
      else
        let d := DequeueNextBlockingFinish s cap c.raw c.tail_index
        some { c with raw := d.2.1, tail_index := d.2.2 }
  | .consumerResume =>
    -- the parked consumer leaves the wait loop once valid is no longer 2.
    if c.consumerParked then
      let n := getNode c.raw c.tail_index
      if n.valid = 2 then none
      else
        let d := DequeueNextBlockingFinish s cap c.raw c.tail_index
        some { c with raw := d.2.1, tail_index := d.2.2, consumerParked := false }
    else none

/-- Run a list of scheduled events. -/
def runActs (s cap : Nat) : List (Act α) → Config α → Option (Config α)
  | [], c => some c
  | a :: rest, c =>
    match stepAct s cap a c with
    | none => none
    | some c1 => runActs s cap rest c1

/-- A call issued in a single-producer single-consumer history: a
non-blocking Enqueue of an item, or a non-blocking DequeueNext. -/
inductive SCOp (α : Type) where
  | enq (item : α)
  | deq
deriving DecidableEq

/-- Result of a single-producer single-consumer run: final shared queue,
final tail index, the successfully enqueued items in call order, and the
items returned by successful dequeues in call order. -/
structure SCRes (α : Type) where
  raw : RawQueue α
  tail : Nat
  enqs : List α
  deqs : List α
deriving DecidableEq

/-- Execute a single-producer single-consumer call sequence. -/
def runSC (s cap : Nat) : List (SCOp α) → RawQueue α → Nat → SCRes α
  | [], q, tail => ⟨q, tail, [], []⟩
  | .enq x :: rest, q, tail =>
    let e := Enqueue s cap q x
    let r := runSC s cap rest e.2 tail
    { r with enqs := if e.1 then x :: r.enqs else r.enqs }
  | .deq :: rest, q, tail =>
    let d := DequeueNext s q tail
    let r := runSC s cap rest d.2.1 d.2.2
    { r with deqs := match d.1 with | some v => v :: r.deqs | none => r.deqs }

/-- The faithful byte-level publish for byte-image payloads: line 117 of
DoEnqueue writes the item with internal::VolatileCopy (sizeof item bytes)
over the current slot storage — partial for aligned byte tails — then
exchanges valid to 1, as in publish. -/
def publishBytes (al : Bool) (q : RawQueue (List Nat)) (i : Nat) (item : List Nat) :
    RawQueue (List Nat) × Nat × Nat :=
  let n := getNode q i
  let old_valid := n.valid
  let n2 : Node (List Nat) :=
    { n with value := internal.VolatileCopy al n.value item item.length, valid := 1 }
  let q1 : RawQueue (List Nat) := { q with array := q.array.set i n2 }
  (q1, old_valid, if old_valid = 2 then 1 else 0)

/-- MpscQueue::DoEnqueue at the byte level (non-waiting path), with the
value write through the faithful VolatileCopy. -/
def DoEnqueueBytes (al : Bool) (s : Nat) (q : RawQueue (List Nat)) (item : List Nat) :
    RawQueue (List Nat) × Nat × Nat :=
  let a := acquireHead s q
  let t := takeWaitTicket a.1 a.2
  publishBytes al t.1 a.2 item

/-- MpscQueue::Enqueue at the byte level: Reserve, then the byte-level
DoEnqueue. -/
def EnqueueBytes (al : Bool) (s cap : Nat) (q : RawQueue (List Nat)) (item : List Nat) :
    Bool × RawQueue (List Nat) :=
  let r := Reserve cap q
  if r.1 then (true, (DoEnqueueBytes al s r.2 item).1) else (false, r.2)

/-- The single-producer single-consumer driver over byte-image payloads,
with the payload write through the faithful VolatileCopy. -/
def runSCBytes (al : Bool) (s cap : Nat) :
    List (SCOp (List Nat)) → RawQueue (List Nat) → Nat → SCRes (List Nat)
  | [], q, tail => ⟨q, tail, [], []⟩
  | .enq x :: rest, q, tail =>
    let e := EnqueueBytes al s cap q x
    let r := runSCBytes al s cap rest e.2 tail
    { r with enqs := if e.1 then x :: r.enqs else r.enqs }
  | .deq :: rest, q, tail =>
    let d := DequeueNext s q tail
    let r := runSCBytes al s cap rest d.2.1 d.2.2
    { r with deqs := match d.1 with | some v => v :: r.deqs | none => r.deqs }

/-- The ring invariant of a quiescent single-producer single-consumer
queue whose outstanding (enqueued, not yet dequeued) items are pending, in
order: write_length counts them, head_index is the masked tail plus the
count, the pending window of slots is valid with the pending values, and
every slot outside the window is invalid. -/
def Inv (s : Nat) (q : RawQueue α) (tail : Nat) (pending : List α) : Prop :=
  q.array.length = 2 ^ s ∧
  q.write_length = pending.length ∧
  pending.length ≤ 2 ^ s ∧
  tail < 2 ^ s ∧
  q.head_index = (tail + pending.length) % 2 ^ s ∧
  (∀ j : Fin pending.length,
      (getNode q ((tail + j.1) % 2 ^ s)).valid = 1 ∧
      (getNode q ((tail + j.1) % 2 ^ s)).value = pending.get j) ∧
  (∀ i, i < 2 ^ s → (∀ j, j < pending.length → (tail + j) % 2 ^ s ≠ i) →
      (getNode q i).valid = 0)

/-- One enqueue-dequeue round used by the wrap-around schedule below. -/
def c5Pair : List (Act Nat) := [Act.enqueue 7, Act.dequeueNext]

/-- Two rounds: with capacity 2 this targets slot 0 and then slot 1, so
both slot counters advance by exactly one per cycle. -/
def c5Cycle : List (Act Nat) := c5Pair ++ c5Pair

/-- Concrete pre-existing contents of the shared memory handed to the
constructor for the capacity-2 wrap-around run. -/
def c5Garbage : RawQueue Nat := ⟨[⟨0, 0, 0⟩, ⟨0, 0, 0⟩], 0, 0, 0⟩

/-- Closed form of the capacity-2 configuration after m cycles (m below
2 ^ 16): empty ring, head and tail back at 0, and both 16-bit counters of
each write_waiters word equal to m. -/
def c5State (m : Nat) : Config Nat :=
  { raw := { array := [⟨7, 0, m * 65536 + m⟩, ⟨7, 0, m * 65536 + m⟩],
             write_length := 0, head_index := 0, blocked_threads := 0 },
    tail_index := 0, consumerParked := false, parkedWriters := [],
    lastPublishPrevValid := some 0 }

/-- Fill the capacity-2 queue and then issue one blocking enqueue. -/
def c5Tail : List (Act Nat) := [Act.enqueue 7, Act.enqueue 7, Act.enqueueBlocking 9]

/-- The full schedule: 2 ^ 15 enqueue-dequeue cycles (driving both packed
counters of slot 0 to 2 ^ 15, so both parity bits are set), then fill the
queue and issue a blocking enqueue targeting the occupied slot 0. -/
def c5Acts : List (Act Nat) := (List.replicate 32768 c5Cycle).flatten ++ c5Tail

/-- A slot valid word is one of the three protocol states 0, 1, 2. -/
def validOk (n : Node α) : Prop := n.valid = 0 ∨ n.valid = 1 ∨ n.valid = 2

/-- The configuration invariant for capacity 2 ^ s: the local tail index is
in range, the slot array keeps its length, and every slot valid word is in
the three-state protocol range. -/
def CInv (s : Nat) (c : Config α) : Prop :=
  c.tail_index < 2 ^ s ∧
  c.raw.array.length = 2 ^ s ∧
  ∀ i, i < c.raw.array.length → validOk (getNode c.raw i)

end MpscQueue

open MpscQueue

/-! Helper lemmas about list cells, the wrap mask, and VolatileCopy. -/

theorem getD_set_self {β : Type} [Inhabited β] (l : List β) (i : Nat) (b : β)
    (h : i < l.length) : (l.set i b).getD i default = b := by
  simp [List.getD, List.getElem?_set_eq_of_lt b h]

theorem getD_set_ne {β : Type} [Inhabited β] (l : List β) (i j : Nat) (b : β)
    (h : i ≠ j) : (l.set i b).getD j default = l.getD j default := by
  simp [List.getD, List.getElem?_set_ne h]

theorem getD_map_lt {β γ : Type} [Inhabited β] [Inhabited γ] (f : β → γ) (l : List β)
    (i : Nat) (h : i < l.length) : (l.map f).getD i default = f (l.getD i default) := by
  simp [List.getD, List.getElem?_map, List.getElem?_eq_getElem h]

theorem mask_eq {s : Nat} (hs : s ≤ 32) : mask s = 2 ^ s - 1 := by
  have ha : 0 < 2 ^ (32 - s) := pow_pos (by norm_num) _
  have hab : 2 ^ (32 - s) * 2 ^ s = 2 ^ 32 := by
    rw [← pow_add]; congr 1; omega
  obtain ⟨b1, hb1⟩ : ∃ b1, 2 ^ s = b1 + 1 :=
    ⟨2 ^ s - 1, by have := pow_pos (show 0 < 2 by norm_num) s; omega⟩
  rw [hb1] at hab ⊢
  have h2 : 2 ^ (32 - s) * (b1 + 1) = 2 ^ (32 - s) * b1 + 2 ^ (32 - s) := by ring
  have key : 2 ^ 32 - 1 = 2 ^ (32 - s) * b1 + (2 ^ (32 - s) - 1) := by omega
  unfold mask
  rw [Nat.shiftRight_eq_div_pow, key, Nat.mul_add_div ha,
      Nat.div_eq_of_lt (by omega), Nat.add_zero]
  omega

theorem and_mask {s : Nat} (hs : s ≤ 32) (x : Nat) : x &&& mask s = x % 2 ^ s := by
  rw [mask_eq hs, Nat.and_pow_two_sub_one_eq_mod]

theorem mod32_and_mask {s : Nat} (hs : s ≤ 32) (x : Nat) :
    x % 2 ^ 32 &&& mask s = x % 2 ^ s := by
  rw [and_mask hs, Nat.mod_mod_of_dvd _ (pow_dvd_pow 2 hs)]

theorem and_mask_lt (s : Nat) (x : Nat) : x &&& mask s < 2 ^ s := by
  rcases le_or_lt s 32 with hs | hs
  · calc x &&& mask s ≤ mask s := Nat.and_le_right
    _ < 2 ^ s := by rw [mask_eq hs]; exact Nat.sub_lt (pow_pos (by norm_num) _) one_pos
  · calc x &&& mask s ≤ mask s := Nat.and_le_right
    _ ≤ 2 ^ 32 - 1 := by
      unfold mask; rw [Nat.shiftRight_eq_div_pow]; exact Nat.div_le_self _ _
    _ < 2 ^ 32 := Nat.sub_lt (by norm_num) one_pos
    _ ≤ 2 ^ s := Nat.pow_le_pow_right (by norm_num) (by omega)

theorem byteLoop_eq : ∀ (n : Nat) (d sl : List Nat), n ≤ d.length → n ≤ sl.length →
    internal.byteLoop n d sl = sl.take n ++ d.drop n := by
  intro n
  induction n with
  | zero => intro d sl _ _; simp [internal.byteLoop]
  | succ m ih =>
    intro d sl hd hsl
    match d, sl with
    | dh :: dt, sh :: st =>
      simp only [internal.byteLoop, List.take_succ_cons, List.drop_succ_cons,
        List.cons_append, List.cons.injEq, true_and]
      exact ih dt st (by simpa using hd) (by simpa using hsl)

theorem take_append_drop_of_len {k : Nat} (a d : List Nat) (ha : a.length = k) :
    ((a ++ d).take k = a) ∧ ((a ++ d).drop k = d) := by
  subst ha
  exact ⟨List.take_left a d, List.drop_left a d⟩

theorem longLoop_eq : ∀ (n : Nat) (d sl : List Nat), n ≤ d.length → n ≤ sl.length →
    internal.longLoop n d sl = (sl.take (n - n % 8) ++ d.drop (n - n % 8), n % 8) := by
  intro n
  induction n using Nat.strong_induction_on with
  | _ n ih =>
    intro d sl hd hsl
    by_cases h8 : 8 ≤ n
    · obtain ⟨m, rfl⟩ : ∃ m, n = m + 8 := ⟨n - 8, by omega⟩
      have hbl : internal.byteLoop 8 d sl = sl.take 8 ++ d.drop 8 :=
        byteLoop_eq 8 d sl (by omega) (by omega)
      have hlen8 : (sl.take 8).length = 8 := by
        simp [List.length_take]; omega
      have htk := take_append_drop_of_len (sl.take 8) (d.drop 8) hlen8
      have hrec := ih m (by omega) (d.drop 8) (sl.drop 8)
        (by simp [List.length_drop]; omega) (by simp [List.length_drop]; omega)
      have hstep : internal.longLoop (m + 8) d sl =
          ((internal.byteLoop 8 d sl).take 8 ++
             (internal.longLoop m ((internal.byteLoop 8 d sl).drop 8) (sl.drop 8)).1,
           (internal.longLoop m ((internal.byteLoop 8 d sl).drop 8) (sl.drop 8)).2) := rfl
      rw [hstep]
      simp only [hbl, htk.1, htk.2]
      rw [hrec]
      simp only [Prod.mk.injEq]
      refine ⟨?_, by omega⟩
      rw [← List.append_assoc, ← List.take_add, List.drop_drop]
      have e1 : 8 + (m - m % 8) = m + 8 - (m + 8) % 8 := by omega
      rw [e1]
    · have hbase : internal.longLoop n d sl = (d, n) := by
        interval_cases n <;> rfl
      rw [hbase]
      have h0 : n % 8 = n := Nat.mod_eq_of_lt (by omega)
      simp [h0]

theorem VolatileCopy_eq (al : Bool) (d sl : List Nat) (n : Nat)
    (hd : n ≤ d.length) (hsl : n ≤ sl.length) :
    internal.VolatileCopy al d sl n =
      if al = true ∧ 8 ≤ n then sl.take (n - n % 8) ++ d.drop (n - n % 8)
      else sl.take n ++ d.drop n := by
  cases al with
  | false =>
    rw [if_neg (by simp)]
    simpa [internal.VolatileCopy] using byteLoop_eq n d sl hd hsl
  | true =>
    have hll := longLoop_eq n d sl hd hsl
    have hlen1 : (sl.take (n - n % 8) ++ d.drop (n - n % 8)).length = d.length := by
      simp [List.length_take, List.length_drop]; omega
    have hbl : internal.byteLoop (n % 8) (sl.take (n - n % 8) ++ d.drop (n - n % 8)) sl =
        sl.take (n % 8) ++ (sl.take (n - n % 8) ++ d.drop (n - n % 8)).drop (n % 8) :=
      byteLoop_eq _ _ _ (by rw [hlen1]; omega) (by omega)
    rw [internal.VolatileCopy, if_pos rfl]
    simp only [hll, hbl]
    split_ifs with hcond
    · have h8 : 8 ≤ n := hcond.2
      have hlen2 : (sl.take (n - n % 8)).length = n - n % 8 := by
        simp [List.length_take]; omega
      rw [List.drop_append_eq_append_drop, hlen2]
      have hz : n % 8 - (n - n % 8) = 0 := by omega
      rw [hz, List.drop_zero, ← List.append_assoc]
      congr 1
      have htt : (sl.take (n - n % 8)).take (n % 8) = sl.take (n % 8) := by
        rw [List.take_take]
        congr 1
        omega
      rw [← htt, List.take_append_drop]
    · have h8 : ¬ 8 ≤ n := fun hx => hcond ⟨by trivial, hx⟩
      have h0 : n - n % 8 = 0 := by omega
      have h1 : n % 8 = n := by omega
      simp [h0, h1]

/-! Characterizations of the queue operations as explicit state updates. -/

theorem Enqueue_true_eq {α : Type} [Inhabited α] (s cap : Nat) (q : RawQueue α) (x : α)
    (h : q.write_length < (cap : Int)) (hi : q.head_index &&& mask s < q.array.length) :
    Enqueue s cap q x =
      (true,
       ⟨q.array.set (q.head_index &&& mask s)
          ⟨x, 1, (exchangeAddWordLow (getNode q (q.head_index &&& mask s)).write_waiters).2⟩,
        q.write_length + 1,
        (q.head_index + 1) % 2 ^ 32 &&& mask s,
        q.blocked_threads⟩) := by
  have hres : ¬ ((cap : Int) ≤ q.write_length) := not_le.mpr h
  simp only [Enqueue, Reserve, EnqueueAt, DoEnqueue, acquireHead, takeWaitTicket, publish,
    getNode, if_neg hres, if_pos trivial]
  simp [getD_set_self, List.length_set, List.set_set, hi]

theorem Enqueue_false_eq {α : Type} [Inhabited α] (s cap : Nat) (q : RawQueue α) (x : α)
    (h : (cap : Int) ≤ q.write_length) :
    Enqueue s cap q x = (false, q) := by
  simp only [Enqueue, Reserve, if_pos h]
  simp only [Bool.false_eq_true, if_false, Prod.mk.injEq, true_and]
  cases q with
  | mk arr wl hd bt => simp

theorem DequeueNext_none_eq {α : Type} [Inhabited α] (s : Nat) (q : RawQueue α) (tail : Nat)
    (h : (getNode q tail).valid ≠ 1) :
    DequeueNext s q tail = (none, q, tail) := by
  simp only [DequeueNext, CompareExchange, if_neg h]
  simp

theorem DequeueNext_some_eq {α : Type} [Inhabited α] (s : Nat) (q : RawQueue α) (tail : Nat)
    (h : (getNode q tail).valid = 1) (ht : tail < q.array.length) :
    DequeueNext s q tail =
      (some (getNode q tail).value,
       ⟨q.array.set tail
          ⟨(getNode q tail).value, 0, incrementWordHigh (getNode q tail).write_waiters⟩,
        q.write_length - 1,
        q.head_index,
        q.blocked_threads⟩,
       (tail + 1) % 2 ^ 32 &&& mask s) := by
  have hnode : getNode q tail = q.array[tail] := by
    simp [getNode, List.getD, List.getElem?_eq_getElem ht]
  rw [hnode] at h
  simp only [DequeueNext, CompareExchange, DoDequeue, getNode]
  simp [getD_set_self, List.length_set, List.set_set, ht, h]

/-! The ring invariant is preserved by each single-producer single-consumer
call and determines its result. -/

theorem idx_inj {cap t j k : Nat} (hj : j < cap) (hk : k < cap)
    (h : (t + j) % cap = (t + k) % cap) : j = k := by
  have hmod : j ≡ k [MOD cap] := Nat.ModEq.add_left_cancel' t h
  have h2 : j % cap = k % cap := hmod
  rwa [Nat.mod_eq_of_lt hj, Nat.mod_eq_of_lt hk] at h2

theorem Inv_enqueue_ok {α : Type} [Inhabited α] {s : Nat} (hs : s ≤ 32) {q : RawQueue α}
    {tail : Nat} {pending : List α} (hI : Inv s q tail pending)
    (hlt : pending.length < 2 ^ s) (x : α) :
    (Enqueue s (2 ^ s) q x).1 = true ∧
    Inv s (Enqueue s (2 ^ s) q x).2 tail (pending ++ [x]) := by
  obtain ⟨hlen, hwl, hle, htail, hhead, hwin, hout⟩ := hI
  have hcap : 0 < 2 ^ s := pow_pos (by norm_num) s
  have hheadlt : q.head_index < 2 ^ s := by rw [hhead]; exact Nat.mod_lt _ hcap
  have hIdx : q.head_index &&& mask s = q.head_index := by
    rw [and_mask hs, Nat.mod_eq_of_lt hheadlt]
  have hi : q.head_index &&& mask s < q.array.length := by rw [hIdx, hlen]; exact hheadlt
  have hwlt : q.write_length < ((2 ^ s : Nat) : Int) := by
    rw [hwl]; exact_mod_cast hlt
  have hE := Enqueue_true_eq s (2 ^ s) q x hwlt hi
  rw [hIdx] at hE
  rw [hE]
  refine ⟨rfl, ?_, ?_, ?_, htail, ?_, ?_, ?_⟩
  · simp [List.length_set, hlen]
  · simp only [List.length_append, List.length_singleton]
    rw [hwl]; push_cast; ring
  · simp only [List.length_append, List.length_singleton]; omega
  · simp only [List.length_append, List.length_singleton]
    rw [mod32_and_mask hs, hhead, Nat.mod_add_mod, Nat.add_assoc]
  · intro j
    have hjlt : j.1 < pending.length + 1 := by simpa using j.2
    by_cases hjp : j.1 < pending.length
    · have hne : q.head_index ≠ (tail + j.1) % 2 ^ s := by
        rw [hhead]; intro hcontra
        have heq := idx_inj hlt (lt_trans hjp hlt) hcontra
        omega
      simp only [getNode]
      rw [getD_set_ne _ _ _ _ hne]
      have hw := hwin ⟨j.1, hjp⟩
      dsimp only [getNode] at hw
      refine ⟨hw.1, ?_⟩
      rw [hw.2]
      simp only [List.get_eq_getElem]
      exact List.getElem_append_left' [x] hjp
    · have hjeq : j.1 = pending.length := by omega
      have hidxeq : (tail + j.1) % 2 ^ s = q.head_index := by rw [hjeq, hhead]
      simp only [getNode, hidxeq]
      rw [getD_set_self _ _ _ (by rw [hlen]; exact hheadlt)]
      refine ⟨rfl, ?_⟩
      simp only [List.get_eq_getElem]
      exact (List.getElem_concat_length pending x j.1 hjeq (by simp [hjeq])).symm
  · intro i hi2 hnot
    have hne : q.head_index ≠ i := by
      rw [hhead]
      exact hnot pending.length (by simp)
    simp only [getNode]
    rw [getD_set_ne _ _ _ _ hne]
    exact hout i hi2 fun j hj => hnot j (by simp; omega)

theorem Inv_enqueue_full {α : Type} [Inhabited α] {s : Nat} {q : RawQueue α}
    {tail : Nat} {pending : List α} (hI : Inv s q tail pending)
    (heq : pending.length = 2 ^ s) (x : α) :
    Enqueue s (2 ^ s) q x = (false, q) := by
  apply Enqueue_false_eq
  rw [hI.2.1, heq]

theorem Inv_dequeue_none {α : Type} [Inhabited α] {s : Nat} {q : RawQueue α}
    {tail : Nat} (hI : Inv s q tail ([] : List α)) :
    DequeueNext s q tail = (none, q, tail) := by
  apply DequeueNext_none_eq
  have h0 := hI.2.2.2.2.2.2 tail hI.2.2.2.1 (by simp)
  simp [h0]

theorem Inv_dequeue_some {α : Type} [Inhabited α] {s : Nat} (hs : s ≤ 32) {q : RawQueue α}
    {tail : Nat} {x : α} {rest : List α} (hI : Inv s q tail (x :: rest)) :
    (DequeueNext s q tail).1 = some x ∧
    (DequeueNext s q tail).2.2 = (tail + 1) % 2 ^ s ∧
    Inv s (DequeueNext s q tail).2.1 ((tail + 1) % 2 ^ s) rest := by
  obtain ⟨hlen, hwl, hle, htail, hhead, hwin, hout⟩ := hI
  have hcap : 0 < 2 ^ s := pow_pos (by norm_num) s
  have htmod : (tail + 0) % 2 ^ s = tail := by
    rw [Nat.add_zero, Nat.mod_eq_of_lt htail]
  have h0 := hwin ⟨0, by simp⟩
  dsimp only [getNode] at h0
  rw [htmod] at h0
  have hv : (getNode q tail).valid = 1 := h0.1
  have hval : (getNode q tail).value = x := h0.2
  have ht : tail < q.array.length := by rw [hlen]; exact htail
  have hD := DequeueNext_some_eq s q tail hv ht
  rw [hD]
  have htail2 : (tail + 1) % 2 ^ 32 &&& mask s = (tail + 1) % 2 ^ s := mod32_and_mask hs _
  refine ⟨by rw [hval], htail2, ?_, ?_, ?_, Nat.mod_lt _ hcap, ?_, ?_, ?_⟩
  · simp [List.length_set, hlen]
  · rw [hwl]; simp only [List.length_cons]; push_cast; ring
  · simp only [List.length_cons] at hle; omega
  · rw [Nat.mod_add_mod, hhead]
    simp only [List.length_cons]
    congr 1
    omega
  · intro j
    have hj : j.1 < rest.length := j.2
    have hidx : ((tail + 1) % 2 ^ s + j.1) % 2 ^ s = (tail + (j.1 + 1)) % 2 ^ s := by
      rw [Nat.mod_add_mod]
      congr 1
      omega
    have hne : tail ≠ (tail + (j.1 + 1)) % 2 ^ s := by
      intro hcontra
      have hcontra2 : (tail + 0) % 2 ^ s = (tail + (j.1 + 1)) % 2 ^ s := by
        rw [htmod]; exact hcontra
      have heq := @idx_inj (2 ^ s) tail 0 (j.1 + 1) hcap (by
        simp only [List.length_cons] at hle; omega) hcontra2
      omega
    simp only [getNode, hidx]
    rw [getD_set_ne _ _ _ _ hne]
    have hw := hwin ⟨j.1 + 1, by simp only [List.length_cons]; omega⟩
    dsimp only [getNode] at hw
    refine ⟨hw.1, ?_⟩
    rw [hw.2]
    rfl
  · intro i hi2 hnot
    by_cases hit : tail = i
    · subst hit
      simp only [getNode]
      rw [getD_set_self _ _ _ ht]
    · simp only [getNode]
      rw [getD_set_ne _ _ _ _ hit]
      apply hout i hi2
      intro j hj
      match j, hj with
      | 0, _ => rw [htmod]; exact hit
      | j1 + 1, hj1 =>
        have hidx : ((tail + 1) % 2 ^ s + j1) % 2 ^ s = (tail + (j1 + 1)) % 2 ^ s := by
          rw [Nat.mod_add_mod]
          congr 1
          omega
        rw [← hidx]
        exact hnot j1 (by simp only [List.length_cons] at hj1; omega)

theorem Inv_construct {α : Type} [Inhabited α] {s : Nat} (g : RawQueue α)
    (hg : g.array.length = 2 ^ s) : Inv s (construct g) 0 ([] : List α) := by
  refine ⟨?_, ?_, ?_, ?_, ?_, ?_, ?_⟩
  · simp [construct, hg]
  · simp [construct]
  · simp
  · exact pow_pos (by norm_num) s
  · simp [construct]
  · intro j; exact absurd j.2 (by simp)
  · intro i hi2 _
    have hi3 : i < g.array.length := by rw [hg]; exact hi2
    simp only [getNode, construct]
    rw [getD_map_lt _ _ _ hi3]

theorem runSC_invariant {α : Type} [Inhabited α] {s : Nat} (hs : s ≤ 32) :
    ∀ (ops : List (SCOp α)) (q : RawQueue α) (tail : Nat) (pending : List α),
      Inv s q tail pending →
      ∃ pending2,
        Inv s (runSC s (2 ^ s) ops q tail).raw (runSC s (2 ^ s) ops q tail).tail pending2 ∧
        pending ++ (runSC s (2 ^ s) ops q tail).enqs =
          (runSC s (2 ^ s) ops q tail).deqs ++ pending2 := by
  intro ops
  induction ops with
  | nil => intro q tail pending hI; exact ⟨pending, hI, by simp [runSC]⟩
  | cons op rest ih =>
    intro q tail pending hI
    cases op with
    | enq x =>
      by_cases hfull : pending.length < 2 ^ s
      · have h1 := Inv_enqueue_ok hs hI hfull x
        obtain ⟨p2, hI2, heq⟩ := ih (Enqueue s (2 ^ s) q x).2 tail (pending ++ [x]) h1.2
        refine ⟨p2, ?_, ?_⟩
        · simpa only [runSC, h1.1, if_true] using hI2
        · simp only [runSC, h1.1, if_true]
          rw [List.append_cons, heq]
      · have hfull2 : pending.length = 2 ^ s := le_antisymm hI.2.2.1 (not_lt.mp hfull)
        have h1 := Inv_enqueue_full hI hfull2 x
        obtain ⟨p2, hI2, heq⟩ := ih q tail pending hI
        refine ⟨p2, ?_, ?_⟩
        · simpa only [runSC, h1, Bool.false_eq_true, if_false] using hI2
        · simpa only [runSC, h1, Bool.false_eq_true, if_false] using heq
    | deq =>
      cases pending with
      | nil =>
        have h1 := Inv_dequeue_none hI
        obtain ⟨p2, hI2, heq⟩ := ih q tail [] hI
        refine ⟨p2, ?_, ?_⟩
        · simpa only [runSC, h1] using hI2
        · simpa only [runSC, h1] using heq
      | cons x rest2 =>
        have h1 := Inv_dequeue_some hs hI
        obtain ⟨p2, hI2, heq⟩ := ih (DequeueNext s q tail).2.1 (DequeueNext s q tail).2.2 rest2
          (by rw [h1.2.1]; exact h1.2.2)
        refine ⟨p2, ?_, ?_⟩
        · simpa only [runSC] using hI2
        · simp only [runSC, h1.1]
          rw [List.cons_append, heq]
          simp

theorem runSC_fill {α : Type} [Inhabited α] {s : Nat} (hs : s ≤ 32) :
    ∀ (xs : List α) (q : RawQueue α) (tail : Nat) (pending : List α),
      Inv s q tail pending → pending.length + xs.length ≤ 2 ^ s →
      (runSC s (2 ^ s) (xs.map SCOp.enq) q tail).enqs = xs ∧
      (runSC s (2 ^ s) (xs.map SCOp.enq) q tail).tail = tail ∧
      (runSC s (2 ^ s) (xs.map SCOp.enq) q tail).deqs = [] ∧
      Inv s (runSC s (2 ^ s) (xs.map SCOp.enq) q tail).raw tail (pending ++ xs) := by
  intro xs
  induction xs with
  | nil =>
    intro q tail pending hI _
    refine ⟨rfl, rfl, rfl, ?_⟩
    simpa using hI
  | cons x rest ih =>
    intro q tail pending hI hbound
    have hfull : pending.length < 2 ^ s := by
      simp only [List.length_cons] at hbound; omega
    have h1 := Inv_enqueue_ok hs hI hfull x
    have hrec := ih (Enqueue s (2 ^ s) q x).2 tail (pending ++ [x]) h1.2
      (by simp only [List.length_append, List.length_singleton, List.length_cons,
            List.length_nil] at hbound ⊢; omega)
    simp only [List.map_cons, runSC, h1.1, if_true]
    refine ⟨?_, hrec.2.1, hrec.2.2.1, ?_⟩
    · rw [hrec.1]
    · have := hrec.2.2.2
      rwa [List.append_assoc, List.singleton_append] at this

/-! Claim theorems. -/

/-- The prefix property of the dequeue outputs over the value-abstracted
model in which the payload write is whole replacement (publish): for
totally-copied payloads (unaligned path, size below 8, or a multiple of 8
bytes, see VolatileCopy_eq) this matches the program; for aligned
byte-tail payloads the program returns corrupted values and the claim C1
fails, see the exhibit below. -/
theorem spsc_fifo_replacement_model {α : Type} [Inhabited α] (s : Nat) (hs : s ≤ 32)
    (g : RawQueue α) (hg : g.array.length = 2 ^ s) (ops : List (SCOp α)) :
    (runSC s (2 ^ s) ops (construct g) 0).deqs <+:
      (runSC s (2 ^ s) ops (construct g) 0).enqs := by
  obtain ⟨p2, _, heq⟩ := runSC_invariant hs ops (construct g) 0 [] (Inv_construct g hg)
  exact ⟨p2, by simpa using heq.symm⟩

/-- C1 exhibit: single producer and single consumer on a freshly created
capacity-2 queue whose slot storage holds stale bytes 9; two Enqueues of
aligned 11-byte byte images followed by two DequeueNexts succeed, but the
8-byte words are copied and the 3-byte tails are left stale (the byte
loop of VolatileCopy restarts at the buffer start), so the dequeued
sequence is not an initial segment of the successfully enqueued sequence:
the values returned by successful dequeues are not the enqueued values. -/
theorem C1_fifo_broken_by_tail_copy :
    (runSCBytes true 1 2
        [SCOp.enq [1, 2, 3, 4, 5, 6, 7, 8, 9, 10, 11],
         SCOp.enq [21, 22, 23, 24, 25, 26, 27, 28, 29, 30, 31], SCOp.deq, SCOp.deq]
        (construct (⟨[⟨[9, 9, 9, 9, 9, 9, 9, 9, 9, 9, 9], 0, 0⟩,
          ⟨[9, 9, 9, 9, 9, 9, 9, 9, 9, 9, 9], 0, 0⟩], 0, 0, 0⟩ : RawQueue (List Nat)))
        0).enqs =
      [[1, 2, 3, 4, 5, 6, 7, 8, 9, 10, 11], [21, 22, 23, 24, 25, 26, 27, 28, 29, 30, 31]] ∧
    (runSCBytes true 1 2
        [SCOp.enq [1, 2, 3, 4, 5, 6, 7, 8, 9, 10, 11],
         SCOp.enq [21, 22, 23, 24, 25, 26, 27, 28, 29, 30, 31], SCOp.deq, SCOp.deq]
        (construct (⟨[⟨[9, 9, 9, 9, 9, 9, 9, 9, 9, 9, 9], 0, 0⟩,
          ⟨[9, 9, 9, 9, 9, 9, 9, 9, 9, 9, 9], 0, 0⟩], 0, 0, 0⟩ : RawQueue (List Nat)))
        0).deqs =
      [[1, 2, 3, 4, 5, 6, 7, 8, 9, 9, 9], [21, 22, 23, 24, 25, 26, 27, 28, 9, 9, 9]] ∧
    ¬ ((runSCBytes true 1 2
        [SCOp.enq [1, 2, 3, 4, 5, 6, 7, 8, 9, 10, 11],
         SCOp.enq [21, 22, 23, 24, 25, 26, 27, 28, 29, 30, 31], SCOp.deq, SCOp.deq]
        (construct (⟨[⟨[9, 9, 9, 9, 9, 9, 9, 9, 9, 9, 9], 0, 0⟩,
          ⟨[9, 9, 9, 9, 9, 9, 9, 9, 9, 9, 9], 0, 0⟩], 0, 0, 0⟩ : RawQueue (List Nat)))
        0).deqs <+:
      (runSCBytes true 1 2
        [SCOp.enq [1, 2, 3, 4, 5, 6, 7, 8, 9, 10, 11],
         SCOp.enq [21, 22, 23, 24, 25, 26, 27, 28, 29, 30, 31], SCOp.deq, SCOp.deq]
        (construct (⟨[⟨[9, 9, 9, 9, 9, 9, 9, 9, 9, 9, 9], 0, 0⟩,
          ⟨[9, 9, 9, 9, 9, 9, 9, 9, 9, 9, 9], 0, 0⟩], 0, 0, 0⟩ : RawQueue (List Nat)))
        0).enqs) := by
  decide

/-- C2: starting from an empty queue of capacity C = 2 ^ s, C consecutive
Enqueue calls each return true, the next Enqueue returns false with the
write_length fetch-add undone so the shared state is exactly unchanged,
and after one successful DequeueNext a further Enqueue returns true. -/
theorem C2_fill_full_boundary {α : Type} [Inhabited α] (s : Nat) (hs : s ≤ 32)
    (g : RawQueue α) (hg : g.array.length = 2 ^ s)
    (xs : List α) (hxs : xs.length = 2 ^ s) (y z : α) :
    (runSC s (2 ^ s) (xs.map SCOp.enq) (construct g) 0).enqs = xs ∧
    Enqueue s (2 ^ s) (runSC s (2 ^ s) (xs.map SCOp.enq) (construct g) 0).raw y =
      (false, (runSC s (2 ^ s) (xs.map SCOp.enq) (construct g) 0).raw) ∧
    (DequeueNext s (runSC s (2 ^ s) (xs.map SCOp.enq) (construct g) 0).raw 0).1 = xs.head? ∧
    (Enqueue s (2 ^ s)
        (DequeueNext s (runSC s (2 ^ s) (xs.map SCOp.enq) (construct g) 0).raw 0).2.1 z).1 =
      true := by
  obtain ⟨x, rest, rfl⟩ : ∃ x rest, xs = x :: rest := by
    cases xs with
    | nil =>
      exfalso
      have := pow_pos (show (0 : Nat) < 2 by norm_num) s
      simp at hxs
      omega
    | cons x rest => exact ⟨x, rest, rfl⟩
  have hfill := runSC_fill hs (x :: rest) (construct g) 0 [] (Inv_construct g hg)
    (by simp [hxs])
  have hIfull : Inv s (runSC s (2 ^ s) ((x :: rest).map SCOp.enq) (construct g) 0).raw 0
      (x :: rest) := by
    have := hfill.2.2.2
    rwa [List.nil_append] at this
  have hd := Inv_dequeue_some hs hIfull
  refine ⟨hfill.1, Inv_enqueue_full hIfull hxs y, by rw [hd.1]; rfl, ?_⟩
  have hrest : rest.length < 2 ^ s := by
    simp only [List.length_cons] at hxs; omega
  have hI2 : Inv s (DequeueNext s (runSC s (2 ^ s) ((x :: rest).map SCOp.enq)
      (construct g) 0).raw 0).2.1 ((0 + 1) % 2 ^ s) rest := hd.2.2
  exact (Inv_enqueue_ok hs hI2 hrest z).1

/-- Witness for C2 at capacity 2. -/
theorem C2_fill_full_boundary_witness :
    (1 ≤ 32) ∧
    ((⟨[⟨0, 0, 0⟩, ⟨0, 0, 0⟩], 0, 0, 0⟩ : RawQueue Nat).array.length = 2 ^ 1) ∧
    (([10, 20] : List Nat).length = 2 ^ 1) ∧
    ((runSC 1 (2 ^ 1) ([10, 20].map SCOp.enq)
        (construct (⟨[⟨0, 0, 0⟩, ⟨0, 0, 0⟩], 0, 0, 0⟩ : RawQueue Nat)) 0).enqs = [10, 20] ∧
     Enqueue 1 (2 ^ 1) (runSC 1 (2 ^ 1) ([10, 20].map SCOp.enq)
        (construct (⟨[⟨0, 0, 0⟩, ⟨0, 0, 0⟩], 0, 0, 0⟩ : RawQueue Nat)) 0).raw 30 =
       (false, (runSC 1 (2 ^ 1) ([10, 20].map SCOp.enq)
        (construct (⟨[⟨0, 0, 0⟩, ⟨0, 0, 0⟩], 0, 0, 0⟩ : RawQueue Nat)) 0).raw) ∧
     (DequeueNext 1 (runSC 1 (2 ^ 1) ([10, 20].map SCOp.enq)
        (construct (⟨[⟨0, 0, 0⟩, ⟨0, 0, 0⟩], 0, 0, 0⟩ : RawQueue Nat)) 0).raw 0).1 =
       ([10, 20] : List Nat).head? ∧
     (Enqueue 1 (2 ^ 1) (DequeueNext 1 (runSC 1 (2 ^ 1) ([10, 20].map SCOp.enq)
        (construct (⟨[⟨0, 0, 0⟩, ⟨0, 0, 0⟩], 0, 0, 0⟩ : RawQueue Nat)) 0).raw 0).2.1 40).1 =
       true) :=
  ⟨by norm_num, by decide, by decide,
   C2_fill_full_boundary 1 (by norm_num) _ (by decide) [10, 20] (by decide) 30 40⟩

/-- C3 exhibit: the volatile 8-byte-then-byte-tail copy followed by the
read-out is NOT the identity on byte images when a byte tail is present on
the aligned path. At an 11-byte payload (one aligned 64-bit word plus a
3-byte tail), the byte loop re-derives its pointers from the buffer start
(src lines 32-33), re-copies the first 3 bytes and never writes the last
3 destination bytes, and the Enqueue-then-DequeueNext roundtrip on an
otherwise empty queue returns the corrupted image. -/
theorem C3_tail_bytes_not_copied :
    internal.VolatileCopy true [9, 9, 9, 9, 9, 9, 9, 9, 9, 9, 9]
        [1, 2, 3, 4, 5, 6, 7, 8, 9, 10, 11] 11 = [1, 2, 3, 4, 5, 6, 7, 8, 9, 9, 9] ∧
    ([1, 2, 3, 4, 5, 6, 7, 8, 9, 9, 9] : List Nat) ≠ [1, 2, 3, 4, 5, 6, 7, 8, 9, 10, 11] ∧
    (EnqueueBytes true 1 2
      (construct (⟨[⟨[9, 9, 9, 9, 9, 9, 9, 9, 9, 9, 9], 0, 0⟩,
        ⟨[9, 9, 9, 9, 9, 9, 9, 9, 9, 9, 9], 0, 0⟩], 0, 0, 0⟩ : RawQueue (List Nat)))
      [1, 2, 3, 4, 5, 6, 7, 8, 9, 10, 11]).1 = true ∧
    (DequeueNext 1 (EnqueueBytes true 1 2
      (construct (⟨[⟨[9, 9, 9, 9, 9, 9, 9, 9, 9, 9, 9], 0, 0⟩,
        ⟨[9, 9, 9, 9, 9, 9, 9, 9, 9, 9, 9], 0, 0⟩], 0, 0, 0⟩ : RawQueue (List Nat)))
      [1, 2, 3, 4, 5, 6, 7, 8, 9, 10, 11]).2 0).1 =
      some [1, 2, 3, 4, 5, 6, 7, 8, 9, 9, 9] := by
  decide

/-- C7: when the slot at tail_index does not hold valid = 1, DequeueNext
returns false and changes nothing: write_length, head_index, tail_index,
the slot value, valid, and write_waiters all keep their prior values. -/
theorem C7_dequeue_empty_noop {α : Type} [Inhabited α] (s : Nat) (q : RawQueue α)
    (tail : Nat) (h : (getNode q tail).valid ≠ 1) :
    DequeueNext s q tail = (none, q, tail) :=
  DequeueNext_none_eq s q tail h

/-- Witness for C7 on a concrete queue whose tail slot holds valid = 0. -/
theorem C7_dequeue_empty_noop_witness :
    ((getNode (⟨[⟨5, 0, 3⟩, ⟨6, 1, 4⟩], 1, 1, 0⟩ : RawQueue Nat) 0).valid ≠ 1) ∧
    DequeueNext 6 (⟨[⟨5, 0, 3⟩, ⟨6, 1, 4⟩], 1, 1, 0⟩ : RawQueue Nat) 0 =
      (none, (⟨[⟨5, 0, 3⟩, ⟨6, 1, 4⟩], 1, 1, 0⟩ : RawQueue Nat), 0) :=
  ⟨by decide, C7_dequeue_empty_noop 6 _ 0 (by decide)⟩

/-- C8 as stated is false at this input: the constructor does not write
blocked_threads, so prior memory contents survive queue creation. -/
theorem C8_counterexample :
    ¬ ((construct (⟨[⟨0, 1, 7⟩, ⟨0, 2, 9⟩], 3, 4, 5⟩ : RawQueue Nat)).blocked_threads = 0) := by
  decide

/-- C8 amended: creating a new queue zeroes write_length, head_index, and
every slot valid and write_waiters (blocked_threads is left untouched by
the constructor), so that a freshly created queue of capacity C = 2 ^ s
admits C successful enqueues and no successful dequeue before any
enqueue. -/
theorem C8_construct_init {α : Type} [Inhabited α] (s : Nat) (hs : s ≤ 32)
    (g : RawQueue α) (hg : g.array.length = 2 ^ s)
    (xs : List α) (hxs : xs.length = 2 ^ s) :
    (construct g).write_length = 0 ∧
    (construct g).head_index = 0 ∧
    (∀ i, i < (construct g).array.length →
      (getNode (construct g) i).valid = 0 ∧ (getNode (construct g) i).write_waiters = 0) ∧
    (runSC s (2 ^ s) (xs.map SCOp.enq) (construct g) 0).enqs = xs ∧
    DequeueNext s (construct g) 0 = (none, construct g, 0) := by
  refine ⟨rfl, rfl, ?_, ?_, ?_⟩
  · intro i hi
    have hi2 : i < g.array.length := by simpa [construct] using hi
    simp only [getNode, construct]
    rw [getD_map_lt _ _ _ hi2]
    exact ⟨rfl, rfl⟩
  · exact (runSC_fill hs xs (construct g) 0 [] (Inv_construct g hg) (by simp [hxs])).1
  · exact Inv_dequeue_none (Inv_construct g hg)

/-- Witness for the amended C8 at capacity 2. -/
theorem C8_construct_init_witness :
    (1 ≤ 32) ∧
    ((⟨[⟨7, 1, 2⟩, ⟨8, 2, 3⟩], 9, 9, 5⟩ : RawQueue Nat).array.length = 2 ^ 1) ∧
    (([4, 5] : List Nat).length = 2 ^ 1) ∧
    ((construct (⟨[⟨7, 1, 2⟩, ⟨8, 2, 3⟩], 9, 9, 5⟩ : RawQueue Nat)).write_length = 0 ∧
     (construct (⟨[⟨7, 1, 2⟩, ⟨8, 2, 3⟩], 9, 9, 5⟩ : RawQueue Nat)).head_index = 0 ∧
     (∀ i, i < (construct (⟨[⟨7, 1, 2⟩, ⟨8, 2, 3⟩], 9, 9, 5⟩ : RawQueue Nat)).array.length →
       (getNode (construct (⟨[⟨7, 1, 2⟩, ⟨8, 2, 3⟩], 9, 9, 5⟩ : RawQueue Nat)) i).valid = 0 ∧
       (getNode (construct (⟨[⟨7, 1, 2⟩, ⟨8, 2, 3⟩], 9, 9, 5⟩ : RawQueue Nat)) i).write_waiters
         = 0) ∧
     (runSC 1 (2 ^ 1) (([4, 5] : List Nat).map SCOp.enq)
        (construct (⟨[⟨7, 1, 2⟩, ⟨8, 2, 3⟩], 9, 9, 5⟩ : RawQueue Nat)) 0).enqs = [4, 5] ∧
     DequeueNext 1 (construct (⟨[⟨7, 1, 2⟩, ⟨8, 2, 3⟩], 9, 9, 5⟩ : RawQueue Nat)) 0 =
       (none, construct (⟨[⟨7, 1, 2⟩, ⟨8, 2, 3⟩], 9, 9, 5⟩ : RawQueue Nat), 0)) :=
  ⟨by norm_num, by decide, by decide,
   C8_construct_init 1 (by norm_num) _ (by decide) [4, 5] (by decide)⟩

/-- C9: MutexRelease on a mutex in state 1 sets the state to 0 and issues
no wake; in state 2 it sets the state to 0 and wakes one waiter; in any
other state the double-release assertion fires. -/
theorem C9_mutex_release :
    MutexRelease 1 = some (0, 0) ∧ MutexRelease 2 = some (0, 1) ∧
    ∀ st : Nat, st ≠ 1 → st ≠ 2 → MutexRelease st = none := by
  refine ⟨rfl, rfl, ?_⟩
  intro st h1 h2
  simp [MutexRelease, CompareExchange, h1, h2]

/-- Witness for C9, exercising the fatal branch at state 0. -/
theorem C9_mutex_release_witness :
    ((0 : Nat) ≠ 1) ∧ ((0 : Nat) ≠ 2) ∧ MutexRelease 0 = none :=
  ⟨by decide, by decide, C9_mutex_release.2.2 0 (by decide) (by decide)⟩

/-! The configuration invariant (slot state range and tail bound) is
preserved by every scheduled event. -/

theorem getD_oob {β : Type} [Inhabited β] (l : List β) (i : Nat) (h : l.length ≤ i) :
    l.getD i default = default := by
  simp [List.getD, List.getElem?_eq_none h]

theorem validOk_getD {α : Type} [Inhabited α] {arr : List (Node α)}
    (harr : ∀ j, j < arr.length → validOk (arr.getD j default)) (i : Nat) :
    validOk (arr.getD i default) := by
  by_cases hi : i < arr.length
  · exact harr i hi
  · rw [getD_oob _ _ (by omega)]
    exact Or.inl rfl

theorem validOk_set_preserve {α : Type} [Inhabited α] {arr : List (Node α)} {i : Nat}
    {n : Node α}
    (harr : ∀ j, j < arr.length → validOk (arr.getD j default)) (hn : validOk n) :
    ∀ j, j < (arr.set i n).length → validOk ((arr.set i n).getD j default) := by
  intro j hj
  by_cases hij : i = j
  · subst hij
    have hlt : i < arr.length := by simpa using hj
    rw [getD_set_self _ _ _ hlt]
    exact hn
  · rw [getD_set_ne _ _ _ _ hij]
    exact harr j (by simpa using hj)

theorem node_default_valid {α : Type} [Inhabited α] : (default : Node α).valid = 0 := rfl

theorem DequeueNext_preserves {α : Type} [Inhabited α] (s : Nat) (q : RawQueue α)
    (tail : Nat) (hlen : q.array.length = 2 ^ s)
    (harr : ∀ j, j < q.array.length → validOk (q.array.getD j default)) :
    (DequeueNext s q tail).2.1.array.length = 2 ^ s ∧
    (∀ j, j < (DequeueNext s q tail).2.1.array.length →
        validOk ((DequeueNext s q tail).2.1.array.getD j default)) ∧
    ((DequeueNext s q tail).2.2 = tail ∨ (DequeueNext s q tail).2.2 < 2 ^ s) := by
  by_cases hv : (getNode q tail).valid = 1
  · have ht : tail < q.array.length := by
      by_contra hc
      rw [getNode, getD_oob _ _ (by omega)] at hv
      simp at hv
    have hD := DequeueNext_some_eq s q tail hv ht
    rw [hD]
    refine ⟨by simp [List.length_set, hlen], ?_, Or.inr (and_mask_lt s _)⟩
    intro j hj
    exact validOk_set_preserve harr (Or.inl rfl) j (by simpa using hj)
  · rw [DequeueNext_none_eq s q tail hv]
    exact ⟨hlen, harr, Or.inl rfl⟩

theorem Finish_preserves {α : Type} [Inhabited α] (s cap : Nat) (q : RawQueue α)
    (tail : Nat) (hlen : q.array.length = 2 ^ s)
    (harr : ∀ j, j < q.array.length → validOk (q.array.getD j default)) :
    (DequeueNextBlockingFinish s cap q tail).2.1.array.length = 2 ^ s ∧
    (∀ j, j < (DequeueNextBlockingFinish s cap q tail).2.1.array.length →
        validOk ((DequeueNextBlockingFinish s cap q tail).2.1.array.getD j default)) ∧
    ((DequeueNextBlockingFinish s cap q tail).2.2 < 2 ^ s) ∧
    (getNode (DequeueNextBlockingFinish s cap q tail).2.1 tail).valid = 0 := by
  have hmid : ((q.array.set tail
      ⟨(q.array.getD tail default).value, 0,
       (q.array.getD tail default).write_waiters⟩).getD tail default).valid = 0 := by
    by_cases ht : tail < q.array.length
    · rw [getD_set_self _ _ _ ht]
    · rw [getD_oob _ _ (by simp only [List.length_set]; omega)]
      exact node_default_valid
  have hX : ∀ j, j < (q.array.set tail
      ⟨(q.array.getD tail default).value, 0,
       (q.array.getD tail default).write_waiters⟩).length →
      validOk ((q.array.set tail
        ⟨(q.array.getD tail default).value, 0,
         (q.array.getD tail default).write_waiters⟩).getD j default) :=
    validOk_set_preserve harr (Or.inl rfl)
  simp only [DequeueNextBlockingFinish, DoDequeue, getNode]
  refine ⟨by simp [List.length_set, hlen], ?_, and_mask_lt s _, ?_⟩
  · intro j hj
    refine validOk_set_preserve hX ?_ j (by simpa using hj)
    exact validOk_getD hX tail
  · by_cases ht : tail < q.array.length
    · rw [getD_set_self _ _ _ (by simpa using ht)]
      exact hmid
    · rw [getD_oob _ _ (by simp only [List.length_set]; omega)]
      exact node_default_valid

theorem CInv_step {α : Type} [Inhabited α] {s cap : Nat} {a : Act α} {c c2 : Config α}
    (h : stepAct s cap a c = some c2) (hI : CInv s c) : CInv s c2 := by
  obtain ⟨htail, hlen, harr⟩ := hI
  simp only [getNode] at harr
  cases a with
  | enqueue item =>
    simp only [stepAct] at h
    have harra : (Reserve cap c.raw).2.array = c.raw.array := by
      simp only [Reserve]; split <;> rfl
    by_cases hr : (Reserve cap c.raw).1 = true
    · rw [if_pos hr] at h
      obtain rfl := (Option.some_inj.mp h).symm
      have harr1 : ∀ j, j < (Reserve cap c.raw).2.array.length →
          validOk ((Reserve cap c.raw).2.array.getD j default) := by
        rw [harra]; exact harr
      refine ⟨htail, ?_, ?_⟩
      · simp only [DoEnqueue, publish, takeWaitTicket, acquireHead]
        simp [List.length_set, harra, hlen]
      · simp only [DoEnqueue, publish, takeWaitTicket, acquireHead, getNode]
        intro j hj
        refine validOk_set_preserve (validOk_set_preserve harr1 ?_)
          (Or.inr (Or.inl rfl)) j (by simpa using hj)
        exact validOk_getD harr1 _
    · rw [if_neg hr] at h
      obtain rfl := (Option.some_inj.mp h).symm
      exact ⟨htail, by simpa [harra] using hlen,
        by simp only [getNode, harra]; exact harr⟩
  | enqueueBlocking item =>
    simp only [stepAct] at h
    have harr1 : ∀ j, j < c.raw.array.length → validOk (c.raw.array.getD j default) := harr
    split_ifs at h with hw
    · obtain rfl := (Option.some_inj.mp h).symm
      refine ⟨htail, ?_, ?_⟩
      · simp only [takeWaitTicket, acquireHead]
        simp [List.length_set, hlen]
      · simp only [takeWaitTicket, acquireHead, getNode]
        intro j hj
        refine validOk_set_preserve harr1 ?_ j (by simpa using hj)
        exact validOk_getD harr1 _
    · obtain rfl := (Option.some_inj.mp h).symm
      refine ⟨htail, ?_, ?_⟩
      · simp only [publish, takeWaitTicket, acquireHead]
        simp [List.length_set, hlen]
      · simp only [publish, takeWaitTicket, acquireHead, getNode]
        intro j hj
        refine validOk_set_preserve (validOk_set_preserve harr1 ?_)
          (Or.inr (Or.inl rfl)) j (by simpa using hj)
        exact validOk_getD harr1 _
  | writerResume idx =>
    simp only [stepAct] at h
    split at h
    · exact absurd h (by simp)
    · split_ifs at h with hw
      obtain rfl := (Option.some_inj.mp h).symm
      refine ⟨htail, ?_, ?_⟩
      · simp only [publish]
        simp [List.length_set, hlen]
      · simp only [publish, getNode]
        intro j hj
        exact validOk_set_preserve harr (Or.inr (Or.inl rfl)) j (by simpa using hj)
  | dequeueNext =>
    simp only [stepAct] at h
    by_cases hp : c.consumerParked = true
    · rw [if_pos hp] at h; exact absurd h (by simp)
    · rw [if_neg hp] at h
      obtain rfl := (Option.some_inj.mp h).symm
      have hD := DequeueNext_preserves s c.raw c.tail_index hlen harr
      refine ⟨?_, hD.1, by simp only [getNode]; exact hD.2.1⟩
      rcases hD.2.2 with he | hlt
      · rw [he]; exact htail
      · exact hlt
  | dequeueNextBlockingCall =>
    simp only [stepAct] at h
    by_cases hp : c.consumerParked = true
    · rw [if_pos hp] at h; exact absurd h (by simp)
    · rw [if_neg hp] at h
      by_cases hv1 : (getNode c.raw c.tail_index).valid = 1
      · rw [if_pos hv1] at h
        obtain rfl := (Option.some_inj.mp h).symm
        have hF := Finish_preserves s cap c.raw c.tail_index hlen harr
        exact ⟨hF.2.2.1, hF.1, by simp only [getNode]; exact hF.2.1⟩
      · rw [if_neg hv1] at h
        by_cases hv0 : (getNode c.raw c.tail_index).valid = 0
        · rw [if_pos hv0] at h
          obtain rfl := (Option.some_inj.mp h).symm
          refine ⟨htail, by simp [List.length_set, hlen], ?_⟩
          simp only [getNode]
          intro j hj
          exact validOk_set_preserve harr (Or.inr (Or.inr rfl)) j (by simpa using hj)
        · rw [if_neg hv0] at h
          obtain rfl := (Option.some_inj.mp h).symm
          have hF := Finish_preserves s cap c.raw c.tail_index hlen harr
          exact ⟨hF.2.2.1, hF.1, by simp only [getNode]; exact hF.2.1⟩
  | consumerResume =>
    simp only [stepAct] at h
    by_cases hp : c.consumerParked = true
    · rw [if_pos hp] at h
      by_cases hv2 : (getNode c.raw c.tail_index).valid = 2
      · rw [if_pos hv2] at h; exact absurd h (by simp)
      · rw [if_neg hv2] at h
        obtain rfl := (Option.some_inj.mp h).symm
        have hF := Finish_preserves s cap c.raw c.tail_index hlen harr
        exact ⟨hF.2.2.1, hF.1, by simp only [getNode]; exact hF.2.1⟩
    · rw [if_neg hp] at h; exact absurd h (by simp)

theorem runActs_cons {α : Type} [Inhabited α] (s cap : Nat) (a : Act α)
    (rest : List (Act α)) (c : Config α) :
    runActs s cap (a :: rest) c = (stepAct s cap a c).bind (runActs s cap rest) := by
  cases h1 : stepAct s cap a c <;> simp [runActs, h1]

theorem runActs_append {α : Type} [Inhabited α] (s cap : Nat) (l1 l2 : List (Act α))
    (c : Config α) :
    runActs s cap (l1 ++ l2) c = (runActs s cap l1 c).bind (runActs s cap l2) := by
  induction l1 generalizing c with
  | nil => simp [runActs]
  | cons a rest ih =>
    rw [List.cons_append, runActs_cons, runActs_cons]
    cases stepAct s cap a c <;> simp [ih]

theorem CInv_runActs {α : Type} [Inhabited α] {s cap : Nat} :
    ∀ (acts : List (Act α)) (c c2 : Config α),
      runActs s cap acts c = some c2 → CInv s c → CInv s c2 := by
  intro acts
  induction acts with
  | nil =>
    intro c c2 h hI
    simp only [runActs] at h
    obtain rfl := Option.some_inj.mp h
    exact hI
  | cons a rest ih =>
    intro c c2 h hI
    rw [runActs_cons] at h
    cases hs1 : stepAct s cap a c with
    | none => rw [hs1] at h; exact absurd h (by simp)
    | some c1 =>
      rw [hs1] at h
      simp only [Option.some_bind] at h
      exact ih c1 c2 h (CInv_step hs1 hI)

theorem CInv_init {α : Type} [Inhabited α] (s : Nat) (g : RawQueue α)
    (hg : g.array.length = 2 ^ s) : CInv s (initConfig g) := by
  refine ⟨pow_pos (by norm_num) s, by simp [initConfig, construct, hg], ?_⟩
  intro i hi
  have hi2 : i < g.array.length := by simpa [initConfig, construct] using hi
  simp only [initConfig, construct, getNode]
  rw [getD_map_lt _ _ _ hi2]
  exact Or.inl rfl

/-- C6: in every configuration reachable from a freshly created queue by
any schedule of operations, every slot valid word is 0, 1 or 2, and a
completed DequeueNextBlocking (either the immediate path or the resume of
a parked consumer) leaves the dequeued slot with valid 0 — no slot remains
at the sentinel 2. -/
theorem C6_valid_three_state {α : Type} [Inhabited α] (s cap : Nat) (g : RawQueue α)
    (hg : g.array.length = 2 ^ s) (acts : List (Act α)) (c : Config α)
    (h : runActs s cap acts (initConfig g) = some c) :
    (∀ i, i < c.raw.array.length →
      (getNode c.raw i).valid = 0 ∨ (getNode c.raw i).valid = 1 ∨
        (getNode c.raw i).valid = 2) ∧
    (∀ c2, stepAct s cap Act.consumerResume c = some c2 →
      (getNode c2.raw c.tail_index).valid = 0) ∧
    (∀ c2, stepAct s cap Act.dequeueNextBlockingCall c = some c2 →
      c2.consumerParked = false → (getNode c2.raw c.tail_index).valid = 0) := by
  have hI := CInv_runActs acts (initConfig g) c h (CInv_init s g hg)
  have harr : ∀ j, j < c.raw.array.length → validOk (c.raw.array.getD j default) := hI.2.2
  refine ⟨hI.2.2, ?_, ?_⟩
  · intro c2 h2
    simp only [stepAct] at h2
    by_cases hp : c.consumerParked = true
    · rw [if_pos hp] at h2
      by_cases hv2 : (getNode c.raw c.tail_index).valid = 2
      · rw [if_pos hv2] at h2; exact absurd h2 (by simp)
      · rw [if_neg hv2] at h2
        obtain rfl := (Option.some_inj.mp h2).symm
        exact (Finish_preserves s cap c.raw c.tail_index hI.2.1 harr).2.2.2
    · rw [if_neg hp] at h2; exact absurd h2 (by simp)
  · intro c2 h2 hpark
    simp only [stepAct] at h2
    by_cases hp : c.consumerParked = true
    · rw [if_pos hp] at h2; exact absurd h2 (by simp)
    · rw [if_neg hp] at h2
      by_cases hv1 : (getNode c.raw c.tail_index).valid = 1
      · rw [if_pos hv1] at h2
        obtain rfl := (Option.some_inj.mp h2).symm
        exact (Finish_preserves s cap c.raw c.tail_index hI.2.1 harr).2.2.2
      · rw [if_neg hv1] at h2
        by_cases hv0 : (getNode c.raw c.tail_index).valid = 0
        · rw [if_pos hv0] at h2
          obtain rfl := (Option.some_inj.mp h2).symm
          simp at hpark
        · rw [if_neg hv0] at h2
          obtain rfl := (Option.some_inj.mp h2).symm
          exact (Finish_preserves s cap c.raw c.tail_index hI.2.1 harr).2.2.2

/-- Witness for C6 on a fresh capacity-2 queue after a small schedule. -/
theorem C6_valid_three_state_witness :
    ((⟨[⟨0, 0, 0⟩, ⟨0, 0, 0⟩], 0, 0, 0⟩ : RawQueue Nat).array.length = 2 ^ 1) ∧
    (runActs 1 2 [Act.enqueue 5, Act.dequeueNextBlockingCall, Act.dequeueNextBlockingCall]
       (initConfig (⟨[⟨0, 0, 0⟩, ⟨0, 0, 0⟩], 0, 0, 0⟩ : RawQueue Nat)) =
      some (runActs 1 2 [Act.enqueue 5, Act.dequeueNextBlockingCall,
          Act.dequeueNextBlockingCall]
        (initConfig (⟨[⟨0, 0, 0⟩, ⟨0, 0, 0⟩], 0, 0, 0⟩ : RawQueue Nat))).get!) ∧
    ((∀ i, i < (runActs 1 2 [Act.enqueue 5, Act.dequeueNextBlockingCall,
          Act.dequeueNextBlockingCall]
        (initConfig (⟨[⟨0, 0, 0⟩, ⟨0, 0, 0⟩], 0, 0, 0⟩ : RawQueue Nat))).get!.raw.array.length →
      (getNode (runActs 1 2 [Act.enqueue 5, Act.dequeueNextBlockingCall,
          Act.dequeueNextBlockingCall]
        (initConfig (⟨[⟨0, 0, 0⟩, ⟨0, 0, 0⟩], 0, 0, 0⟩ : RawQueue Nat))).get!.raw i).valid = 0 ∨
      (getNode (runActs 1 2 [Act.enqueue 5, Act.dequeueNextBlockingCall,
          Act.dequeueNextBlockingCall]
        (initConfig (⟨[⟨0, 0, 0⟩, ⟨0, 0, 0⟩], 0, 0, 0⟩ : RawQueue Nat))).get!.raw i).valid = 1 ∨
      (getNode (runActs 1 2 [Act.enqueue 5, Act.dequeueNextBlockingCall,
          Act.dequeueNextBlockingCall]
        (initConfig (⟨[⟨0, 0, 0⟩, ⟨0, 0, 0⟩], 0, 0, 0⟩ : RawQueue Nat))).get!.raw i).valid = 2) ∧
     (∀ c2, stepAct 1 2 Act.consumerResume (runActs 1 2 [Act.enqueue 5,
          Act.dequeueNextBlockingCall, Act.dequeueNextBlockingCall]
        (initConfig (⟨[⟨0, 0, 0⟩, ⟨0, 0, 0⟩], 0, 0, 0⟩ : RawQueue Nat))).get! = some c2 →
      (getNode c2.raw (runActs 1 2 [Act.enqueue 5, Act.dequeueNextBlockingCall,
          Act.dequeueNextBlockingCall]
        (initConfig (⟨[⟨0, 0, 0⟩, ⟨0, 0, 0⟩], 0, 0, 0⟩ :
          RawQueue Nat))).get!.tail_index).valid = 0) ∧
     (∀ c2, stepAct 1 2 Act.dequeueNextBlockingCall (runActs 1 2 [Act.enqueue 5,
          Act.dequeueNextBlockingCall, Act.dequeueNextBlockingCall]
        (initConfig (⟨[⟨0, 0, 0⟩, ⟨0, 0, 0⟩], 0, 0, 0⟩ : RawQueue Nat))).get! = some c2 →
      c2.consumerParked = false →
      (getNode c2.raw (runActs 1 2 [Act.enqueue 5, Act.dequeueNextBlockingCall,
          Act.dequeueNextBlockingCall]
        (initConfig (⟨[⟨0, 0, 0⟩, ⟨0, 0, 0⟩], 0, 0, 0⟩ :
          RawQueue Nat))).get!.tail_index).valid = 0)) :=
  ⟨by decide, by decide,
   C6_valid_three_state 1 2 (⟨[⟨0, 0, 0⟩, ⟨0, 0, 0⟩], 0, 0, 0⟩ : RawQueue Nat) (by decide)
     [Act.enqueue 5, Act.dequeueNextBlockingCall, Act.dequeueNextBlockingCall]
     (runActs 1 2 [Act.enqueue 5, Act.dequeueNextBlockingCall, Act.dequeueNextBlockingCall]
       (initConfig (⟨[⟨0, 0, 0⟩, ⟨0, 0, 0⟩], 0, 0, 0⟩ : RawQueue Nat))).get! (by decide)⟩

/-- C10: every slot-array access stays inside [0, capacity): any head
ticket masked locally with the wrap mask is below 2 ^ s regardless of the
best-effort AND on the shared head_index, the slot index DoEnqueue derives
is below 2 ^ s, and the consumer tail index, re-masked after every
advance, stays below 2 ^ s along every schedule from a fresh queue. -/
theorem C10_index_bounds {α : Type} [Inhabited α] (s cap : Nat) :
    (∀ h : Nat, h &&& mask s < 2 ^ s) ∧
    (∀ q : RawQueue α, (acquireHead s q).2 < 2 ^ s) ∧
    (∀ (g : RawQueue α) (acts : List (Act α)) (c : Config α),
      g.array.length = 2 ^ s → runActs s cap acts (initConfig g) = some c →
      c.tail_index < 2 ^ s) := by
  refine ⟨fun h => and_mask_lt s h, ?_, ?_⟩
  · intro q
    simp only [acquireHead]
    exact and_mask_lt s _
  · intro g acts c hg h
    exact (CInv_runActs acts (initConfig g) c h (CInv_init s g hg)).1

/-- Witness for C10 at capacity 2 with concrete inputs. -/
theorem C10_index_bounds_witness :
    (12345 &&& mask 1 < 2 ^ 1) ∧
    ((acquireHead 1 (⟨[⟨(0 : Nat), 0, 0⟩, ⟨0, 0, 0⟩], 0, 77, 0⟩ : RawQueue Nat)).2 < 2 ^ 1) ∧
    ((⟨[⟨(0 : Nat), 0, 0⟩, ⟨0, 0, 0⟩], 0, 0, 0⟩ : RawQueue Nat).array.length = 2 ^ 1) ∧
    (runActs 1 2 [Act.enqueue 3, Act.dequeueNext]
       (initConfig (⟨[⟨(0 : Nat), 0, 0⟩, ⟨0, 0, 0⟩], 0, 0, 0⟩ : RawQueue Nat)) =
      some (runActs 1 2 [Act.enqueue 3, Act.dequeueNext]
       (initConfig (⟨[⟨(0 : Nat), 0, 0⟩, ⟨0, 0, 0⟩], 0, 0, 0⟩ : RawQueue Nat))).get!) ∧
    ((runActs 1 2 [Act.enqueue 3, Act.dequeueNext]
       (initConfig (⟨[⟨(0 : Nat), 0, 0⟩, ⟨0, 0, 0⟩], 0, 0, 0⟩ :
         RawQueue Nat))).get!.tail_index < 2 ^ 1) :=
  ⟨(C10_index_bounds (α := Nat) 1 2).1 12345,
   (C10_index_bounds (α := Nat) 1 2).2.1 _,
   by decide, by decide,
   (C10_index_bounds (α := Nat) 1 2).2.2 (⟨[⟨(0 : Nat), 0, 0⟩, ⟨0, 0, 0⟩], 0, 0, 0⟩ :
       RawQueue Nat) [Act.enqueue 3, Act.dequeueNext]
     (runActs 1 2 [Act.enqueue 3, Act.dequeueNext]
       (initConfig (⟨[⟨(0 : Nat), 0, 0⟩, ⟨0, 0, 0⟩], 0, 0, 0⟩ : RawQueue Nat))).get!
     (by decide) (by decide)⟩

/-- C4 analysis: the inversion flag the source computes
((w AND (1 shl 15)) != (w AND (1 shl 31))) compares the two masked values,
which differ whenever either parity bit is set; so the flag equals the
disjunction of bits 15 and 31, not their inequality. At w = 0x80008000
both parity bits are set: the flag is true although the bits agree, in
contradiction with the spec and with the comment in the source. -/
theorem C4_inverted_flag_bug :
    invertedFlag 2147516416 = true ∧
    Nat.testBit 2147516416 15 = Nat.testBit 2147516416 31 ∧
    (∀ w : Nat, invertedFlag w = (w.testBit 15 || w.testBit 31)) := by
  refine ⟨by decide, by decide, ?_⟩
  intro w
  have h15 : (1 <<< 15 : Nat) = 2 ^ 15 := by decide
  have h31 : (1 <<< 31 : Nat) = 2 ^ 31 := by decide
  simp only [invertedFlag, h15, h31, Nat.and_two_pow]
  cases hb15 : w.testBit 15 <;> cases hb31 : w.testBit 31 <;> simp

/-! The C5 exhibit: after 2 ^ 15 enqueue-dequeue cycles on a capacity-2
queue both packed counters of each slot reach 2 ^ 15, so both parity bits
of the observed write_waiters word are set; the (buggy) inversion flag is
then true, the inverted comparison lets a blocking writer proceed into an
occupied slot, and the publish exchange observes previous valid = 1 — the
input of the fatal overwrite assertion. -/

theorem c5_cycle_step (m : Nat) (hm : m + 1 < 65536) :
    runActs 1 2 c5Cycle (c5State m) = some (c5State (m + 1)) := by
  have h16 : (2 : Nat) ^ 16 = 65536 := by norm_num
  have d1 : (m * 65536 + m) / 65536 = m := by omega
  have d2 : (m * 65536 + m) % 65536 = m := by omega
  have d3 : (m + 1) % 65536 = m + 1 := by omega
  have d4 : (m * 65536 + (m + 1)) % 65536 = m + 1 := by omega
  have d5 : (m * 65536 + (m + 1)) / 65536 = m := by omega
  have e1 : exchangeAddWordLow (m * 65536 + m) = (m, m * 65536 + (m + 1)) := by
    simp only [exchangeAddWordLow, h16, d1, d2, d3, Prod.mk.injEq]
  have e2 : incrementWordHigh (m * 65536 + (m + 1)) = (m + 1) * 65536 + (m + 1) := by
    simp only [incrementWordHigh, h16, d4, d5]
    omega
  have hmask : mask 1 = 1 := by decide
  have sa : stepAct 1 2 (Act.enqueue 7) (c5State m) =
      some ⟨⟨[⟨7, 1, m * 65536 + (m + 1)⟩, ⟨7, 0, m * 65536 + m⟩], 1, 1, 0⟩,
            0, false, [], some 0⟩ := by
    simp only [stepAct, Reserve, DoEnqueue, acquireHead, takeWaitTicket, publish, getNode,
      c5State, hmask, e1]
    norm_num [List.getD, e1, e2]
  have sb : stepAct 1 2 Act.dequeueNext
      (⟨⟨[⟨7, 1, m * 65536 + (m + 1)⟩, ⟨7, 0, m * 65536 + m⟩], 1, 1, 0⟩,
        0, false, [], some 0⟩ : Config Nat) =
      some ⟨⟨[⟨7, 0, (m + 1) * 65536 + (m + 1)⟩, ⟨7, 0, m * 65536 + m⟩], 0, 1, 0⟩,
            1, false, [], some 0⟩ := by
    simp only [stepAct, DequeueNext, DoDequeue, CompareExchange, getNode, hmask, e2]
    norm_num [List.getD, e1, e2]
  have sc : stepAct 1 2 (Act.enqueue 7)
      (⟨⟨[⟨7, 0, (m + 1) * 65536 + (m + 1)⟩, ⟨7, 0, m * 65536 + m⟩], 0, 1, 0⟩,
        1, false, [], some 0⟩ : Config Nat) =
      some ⟨⟨[⟨7, 0, (m + 1) * 65536 + (m + 1)⟩, ⟨7, 1, m * 65536 + (m + 1)⟩], 1, 0, 0⟩,
            1, false, [], some 0⟩ := by
    simp only [stepAct, Reserve, DoEnqueue, acquireHead, takeWaitTicket, publish, getNode,
      hmask, e1]
    norm_num [List.getD, e1, e2]
  have sd : stepAct 1 2 Act.dequeueNext
      (⟨⟨[⟨7, 0, (m + 1) * 65536 + (m + 1)⟩, ⟨7, 1, m * 65536 + (m + 1)⟩], 1, 0, 0⟩,
        1, false, [], some 0⟩ : Config Nat) =
      some (c5State (m + 1)) := by
    simp only [stepAct, DequeueNext, DoDequeue, CompareExchange, getNode, c5State, hmask, e2]
    norm_num [List.getD, e1, e2]
  have hlist : c5Cycle = [Act.enqueue 7, Act.dequeueNext, Act.enqueue 7, Act.dequeueNext] := rfl
  rw [hlist, runActs_cons, sa, Option.some_bind, runActs_cons, sb, Option.some_bind,
      runActs_cons, sc, Option.some_bind, runActs_cons, sd, Option.some_bind]
  rfl

theorem c5_cycles (k : Nat) :
    ∀ m, m + k ≤ 32768 →
      runActs 1 2 (List.replicate k c5Cycle).flatten (c5State m) = some (c5State (m + k)) := by
  induction k with
  | zero => intro m _; simp [runActs]
  | succ k2 ih =>
    intro m hm
    rw [List.replicate_succ, List.flatten_cons, runActs_append, c5_cycle_step m (by omega),
        Option.some_bind]
    have hrec := ih (m + 1) (by omega)
    rw [show m + 1 + k2 = m + (k2 + 1) from by omega] at hrec
    exact hrec

/-- C5 exhibit: on a freshly created capacity-2 queue, after 2 ^ 15
enqueue-dequeue cycles, two enqueues filling the queue, and one
EnqueueBlocking, the blocking writer passes the (buggy) deli-ticket guard
while its slot is still occupied and the publish exchange observes a
previous valid value of 1 — the condition the source treats as the fatal
overwrite assertion. The single-consumer precondition holds throughout. -/
theorem C5_fatal_overwrite_reachable :
    Option.map Config.lastPublishPrevValid
      (runActs 1 2 c5Acts (initConfig c5Garbage)) = some (some 1) := by
  have hbase : runActs 1 2 c5Cycle (initConfig c5Garbage) = some (c5State 1) := by decide
  have hcycles := c5_cycles 32767 1 (by norm_num)
  have htail : Option.map Config.lastPublishPrevValid
      (runActs 1 2 c5Tail (c5State 32768)) = some (some 1) := by decide
  have hsplit : c5Acts = (c5Cycle ++ (List.replicate 32767 c5Cycle).flatten) ++ c5Tail := by
    rw [c5Acts, show (32768 : Nat) = 32767 + 1 from rfl, List.replicate_succ,
        List.flatten_cons]
  rw [hsplit, runActs_append, runActs_append, hbase, Option.some_bind, hcycles,
      Option.some_bind]
  exact htail

end Tachyon
